import Mathlib

/-!
# Verification of the mentat context-assembly engine and broadcast component

A shallow embedding of `src/mentat/code_context.py` and
`src/mentat/broadcast.py`.  Collaborator modules that are not part of the
given sources (`code_feature`, `include_files`, `llm_api`, `auto_context`,
`diff_context`, `embeddings`, `git_handler`) are modelled from the spec; every
such definition is marked `Modelled from the spec`.  Python strings are Lean
`String`s, Python lists are Lean `List`s, Python dicts are association lists
preserving insertion order, and Python's stable `sorted(key=...)` is an
insertion sort that is stable by construction.
-/

/-! ## Stable sorting by key (model of Python `sorted(key=...)`) -/

/-- `keyLe key a b` holds when `key a ≤ key b`; Python's `sorted(key=...)`
sorts with respect to this relation, stably. -/
def keyLe {α : Type _} {κ : Type _} [LinearOrder κ] (key : α → κ) (a b : α) : Prop :=
  key a ≤ key b

instance {α κ : Type _} [LinearOrder κ] (key : α → κ) : DecidableRel (keyLe key) :=
  fun a b => inferInstanceAs (Decidable (key a ≤ key b))

instance {α κ : Type _} [LinearOrder κ] (key : α → κ) : IsTotal α (keyLe key) :=
  ⟨fun a b => le_total (key a) (key b)⟩

instance {α κ : Type _} [LinearOrder κ] (key : α → κ) : IsTrans α (keyLe key) :=
  ⟨fun _ _ _ h1 h2 => le_trans h1 h2⟩

/-- Stable sort by a key function: the model of Python's `sorted(xs, key=...)`. -/
def sortByKey {α κ : Type _} [LinearOrder κ] (key : α → κ) (l : List α) : List α :=
  List.insertionSort (keyLe key) l

/-! ## Association lists: the model of Python `dict` (insertion-ordered) -/

/-- Lookup in an insertion-ordered association list (Python `d.get(k)`). -/
def alookup {β : Type _} : List (String × β) → String → Option β
  | [], _ => none
  | e :: m, k => if e.1 = k then some e.2 else alookup m k

/-- Update/insert in an insertion-ordered association list (Python `d[k] = v`):
an existing key is updated in place, a new key is appended at the end. -/
def aset {β : Type _} : List (String × β) → String → β → List (String × β)
  | [], k, v => [(k, v)]
  | e :: m, k, v => if e.1 = k then (k, v) :: m else e :: aset m k v

/-- Deletion from an association list (Python `del d[k]`). -/
def aerase {β : Type _} : List (String × β) → String → List (String × β)
  | [], _ => []
  | e :: m, k => if e.1 = k then m else e :: aerase m k

/-! ## broadcast.py: Event, MemoryBackend, Broadcast -/

/-- `broadcast.Event`: a channel name and a message (Python `Any`; messages are
modelled as strings). -/
structure Event where
  channel : String
  message : String
deriving DecidableEq, Repr

/-- Insertion into a Python `set` modelled as a duplicate-free list
(`s.add(x)` is a no-op when the element is present). -/
def insertIfAbsent {α : Type _} [DecidableEq α] (x : α) (s : List α) : List α :=
  if x ∈ s then s else s ++ [x]

/-- The state of `broadcast.MemoryBackend`: the subscribed-channel set, the
per-channel missed-event buffers (a `defaultdict(list)`), and the contents of
the `_published` queue in FIFO order. -/
structure MBState where
  subscribed : List String
  missed : List (String × List Event)
  published : List Event
deriving DecidableEq, Repr

namespace MemoryBackend

/-- `self._missed_events[channel]` (a `defaultdict`, so absent keys read as `[]`). -/
def getMissed (s : MBState) (c : String) : List Event :=
  (alookup s.missed c).getD []

/-- `MemoryBackend.publish`: enqueue to `_published` when the channel is
subscribed, else append to the channel's missed-event buffer. -/
def publish (c : String) (msg : String) (s : MBState) : MBState :=
  if c ∈ s.subscribed then { s with published := s.published ++ [⟨c, msg⟩] }
  else { s with missed := aset s.missed c (getMissed s c ++ [⟨c, msg⟩]) }

/-- `MemoryBackend.subscribe`: add the channel to the subscribed set, re-publish
every buffered missed event for the channel, then clear its buffer. -/
def subscribe (c : String) (s : MBState) : MBState :=
  let s1 : MBState := { s with subscribed := insertIfAbsent c s.subscribed }
  let s2 := (getMissed s c).foldl (fun acc e => publish e.channel e.message acc) s1
  { s2 with missed := aset s2.missed c [] }

/-- `MemoryBackend.unsubscribe`: remove the channel from the subscribed set. -/
def unsubscribe (c : String) (s : MBState) : MBState :=
  { s with subscribed := s.subscribed.erase c }

/-- `MemoryBackend.next_published`: the listener dequeues the front of the
`_published` queue. -/
def next_published (s : MBState) : MBState :=
  { s with published := s.published.drop 1 }

end MemoryBackend

/-- The state of `broadcast.Broadcast`: the per-channel subscriber-queue sets
(queues are identified by `Nat` ids) and the owned `MemoryBackend`. -/
structure BCState where
  subscribers : List (String × List Nat)
  backend : MBState
deriving DecidableEq, Repr

namespace Broadcast

/-- `self._subscribers.get(channel)`, read as a (possibly empty) queue set. -/
def getSubs (s : BCState) (c : String) : List Nat :=
  (alookup s.subscribers c).getD []

/-- The entry half of the `Broadcast.subscribe` context manager: when the
channel has no live subscriber queue the backend is subscribed and the entry is
reset, then the fresh queue is added. -/
def subEnter (c : String) (q : Nat) (s : BCState) : BCState :=
  let s1 : BCState :=
    if (alookup s.subscribers c).getD [] = [] then
      { subscribers := aset s.subscribers c [],
        backend := MemoryBackend.subscribe c s.backend }
    else s
  { s1 with subscribers := aset s1.subscribers c (insertIfAbsent q (getSubs s1 c)) }

/-- The exit half of the `Broadcast.subscribe` context manager: the queue is
removed; when it was the last one the channel entry is deleted and the backend
unsubscribed. -/
def subExit (c : String) (q : Nat) (s : BCState) : BCState :=
  let subs' := (getSubs s c).erase q
  if subs' = [] then
    { subscribers := aerase s.subscribers c,
      backend := MemoryBackend.unsubscribe c s.backend }
  else
    { s with subscribers := aset s.subscribers c subs' }

/-- `Broadcast.publish` delegates to the backend. -/
def publish (c : String) (msg : String) (s : BCState) : BCState :=
  { s with backend := MemoryBackend.publish c msg s.backend }

/-- One round of `Broadcast._listener`: dequeue the next published event (its
distribution to subscriber queues is not modelled; the queues' contents are
outside the claims). -/
def listen (s : BCState) : BCState :=
  { s with backend := MemoryBackend.next_published s.backend }

/-- States of a `Broadcast` instance reachable through its public operations.
The `exitStep` precondition records that a context manager only removes the
queue it added. -/
inductive Reachable : BCState → Prop
  | init : Reachable ⟨[], ⟨[], [], []⟩⟩
  | enterStep (c : String) (q : Nat) (s : BCState) (hs : Reachable s) :
      Reachable (subEnter c q s)
  | exitStep (c : String) (q : Nat) (s : BCState) (hs : Reachable s)
      (hq : q ∈ getSubs s c) : Reachable (subExit c q s)
  | publishStep (c msg : String) (s : BCState) (hs : Reachable s) :
      Reachable (publish c msg s)
  | listenStep (s : BCState) (hs : Reachable s) : Reachable (listen s)

/-- The reference-counting invariant together with the bookkeeping facts
needed to push it through the induction. -/
def Inv (s : BCState) : Prop :=
  s.backend.subscribed.Nodup ∧ (s.subscribers.map Prod.fst).Nodup ∧
    ∀ c, c ∈ s.backend.subscribed ↔ getSubs s c ≠ []

end Broadcast

/-! ## code_context.py: data model -/

namespace Mentat

/-- `code_feature.CodeMessageLevel` (module not in src/).  Modelled from the
spec §3: the detail levels `FILE_NAME, CMAP, CMAP_FULL, INTERVAL, CODE`. -/
inductive CodeMessageLevel
  | code
  | interval
  | cmap_full
  | cmap
  | file_name
deriving DecidableEq, Repr

/-- A line range.  Modelled from the spec §3: `interval: (start_line, end_line)`,
half-open on line indices. -/
structure Interval where
  start : Nat
  stop : Nat
deriving DecidableEq, Repr

/-- Modelled from the spec (`diff_context` annotation objects, not in src/):
whether a changed-line interval intersects a feature's range (`none` stands for
a whole-file feature, which every annotation intersects). -/
def Interval.intersects (a : Interval) (i : Option Interval) : Bool :=
  match i with
  | none => true
  | some j => max a.start j.start < min a.stop j.stop

/-- `code_feature.CodeFeature` (module not in src/).  Modelled from the spec
§3: identity is `(path, level, interval-or-none)` with a diff marker and a
pinned flag; `interval` is set iff `level == INTERVAL`.  Paths are
repository-relative strings. -/
structure CodeFeature where
  path : String
  level : CodeMessageLevel
  interval : Option Interval
  diff : Option String
  user_included : Bool
deriving DecidableEq, Repr

/-- `diff_context.DiffContext` (module not in src/).  Modelled from the spec
§3: the baseline label and per-path changed-line intervals. -/
structure DiffContext where
  target : String
  annotations : List (String × List Interval)
deriving DecidableEq, Repr

/-- `DiffContext.get_annotations` (modelled from the spec §4.2). -/
def DiffContext.get_annotations (dc : DiffContext) (p : String) : List Interval :=
  (alookup dc.annotations p).getD []

/-- `diff_context.files` (modelled from the spec §3: `changed_files` is exactly
the key set of `annotations` with non-empty interval lists). -/
def DiffContext.files (dc : DiffContext) : List String :=
  (dc.annotations.filter (fun e => decide (e.2 ≠ []))).map Prod.fst

/-- One file as produced by the repository walker.  Modelled from the spec §1
(FileEnumerator collaborator): a repository-relative path with its
directory/text classification, byte size and text content as lines. -/
structure RepoFile where
  path : String
  is_dir : Bool
  is_text : Bool
  size : Nat
  content : List String
deriving DecidableEq, Repr

/-- The external collaborators of the engine, modelled from the spec §1:
FileEnumerator (`repo`), SymbolMapper (`ctags_disabled`, `symbol_intervals`,
`cmap_lines`, `cmap_full_lines`), EmbeddingIndex (`sim_score`) and the
LLM-assisted selector's external model (`llm_choice`). -/
structure Env where
  repo : List RepoFile
  ctags_disabled : Bool
  symbol_intervals : String → List Interval
  cmap_lines : String → List String
  cmap_full_lines : String → List String
  sim_score : String → CodeFeature → Int
  llm_choice : String → List CodeFeature → List CodeFeature

/-- Modelled from the spec (`llm_api.count_tokens`, not in src/): the Tokenizer
collaborator.  Messages are modelled as lists of lines and the count is
additive over lines (a line's length plus its newline), independent of the
model id. -/
def count_tokens (lines : List String) (_model : String) : Nat :=
  (lines.map (fun l => l.length + 1)).sum

/-- `env.repo` lookup by repository-relative path. -/
def lookupFile (env : Env) (p : String) : Option RepoFile :=
  env.repo.find? (fun f => f.path == p)

/-- The lines of `content` covered by interval `i`. -/
def sliceLines (content : List String) (i : Interval) : List String :=
  (content.drop i.start).take (i.stop - i.start)

/-- Modelled from the spec (`code_feature` rendering, not in src/): the lines a
feature contributes to the code message, by detail level; gap markers between
sub-ranges are treated as part of each sub-range feature's rendering. -/
def featureLines (env : Env) (f : CodeFeature) : List String :=
  let content := ((lookupFile env f.path).map RepoFile.content).getD []
  match f.level with
  | .file_name => [f.path]
  | .cmap => f.path :: env.cmap_lines f.path
  | .cmap_full => f.path :: env.cmap_full_lines f.path
  | .code => f.path :: content
  | .interval =>
      f.path :: (match f.interval with
        | some i => sliceLines content i
        | none => content)

/-- Modelled from the spec (`code_feature.count_feature_tokens`, not in src/):
the token count of one feature's rendering. -/
def count_feature_tokens (env : Env) (f : CodeFeature) (model : String) : Nat :=
  count_tokens (featureLines env f) model

/-- Modelled from the spec §4.7 (`code_feature.get_code_message_from_features`,
not in src/): the rendered message body is the concatenation of the selected
features' renderings. -/
def get_code_message_from_features (env : Env) (fs : List CodeFeature) : List String :=
  (fs.map (featureLines env)).flatten

/-- Modelled from the spec §4.1/§3 (`code_feature.split_file_into_intervals`,
not in src/): split a full-file feature into sub-range features at
SymbolMapper-derived boundaries, in interval-start order; with no boundaries
the whole file stays a single feature.  The user-feature argument mirrors the
source signature. -/
def split_file_into_intervals (env : Env) (fullFeature : CodeFeature)
    (_userFeatures : List CodeFeature) : List CodeFeature :=
  match env.symbol_intervals fullFeature.path with
  | [] => [fullFeature]
  | ivs => (sortByKey Interval.start ivs).map
      (fun iv => { fullFeature with level := .interval, interval := some iv })

/-- The sort key for repository-relative paths: the list of code points.  Its
lexicographic order is exactly Python's string comparison (and agrees with
`String`'s order), and it evaluates inside the kernel. -/
def pathKey (s : String) : List Nat :=
  s.data.map Char.toNat

/-- The default `max_chars` of `_get_all_features`. -/
def max_chars_default : Nat := 100000

/-- The loop body of `code_context._get_all_features` for one enumerated file:
skip directories, non-text files, ignored files and files over `max_chars`
bytes, otherwise produce the file's feature(s) for the requested level. -/
def perFileFeatures (include_files : List (String × List CodeFeature))
    (ignore_files : List String) (diff_context : DiffContext) (code_map : Bool)
    (level : CodeMessageLevel) (env : Env) (max_chars : Nat) (file : RepoFile) :
    List CodeFeature :=
  if file.is_dir ∨ ¬ file.is_text ∨ file.path ∈ ignore_files ∨ file.size > max_chars then
    []
  else if level = .interval then
    if ¬ code_map then
      [⟨file.path, .code, none,
        if file.path ∈ diff_context.files then some diff_context.target else none,
        file.path ∈ include_files.map Prod.fst⟩]
    else
      split_file_into_intervals env
        ⟨file.path, .code, none,
          if file.path ∈ diff_context.files then some diff_context.target else none,
          file.path ∈ include_files.map Prod.fst⟩
        ((alookup include_files file.path).getD [])
  else
    [⟨file.path, level, none,
      if file.path ∈ diff_context.files then some diff_context.target else none,
      file.path ∈ include_files.map Prod.fst⟩]

/-- `code_context._get_all_features`: enumerate every repository file, collect
each admitted file's feature(s), and return them sorted by
repository-relative path. -/
def _get_all_features (include_files : List (String × List CodeFeature))
    (ignore_files : List String) (diff_context : DiffContext) (code_map : Bool)
    (level : CodeMessageLevel) (env : Env) (max_chars : Nat) : List CodeFeature :=
  sortByKey (fun f => pathKey f.path)
    (env.repo.map (perFileFeatures include_files ignore_files diff_context
      code_map level env max_chars)).flatten

/-- The session configuration fields the engine reads (`config.no_code_map`,
`config.auto_tokens` with `none` meaning unbounded, `config.use_embeddings`). -/
structure Config where
  no_code_map : Bool
  auto_tokens : Option Nat
  use_embeddings : Bool
deriving DecidableEq, Repr

/-- The mutable state of a `CodeContext` instance (plus the session `Config`,
which `set_code_map` may write). -/
structure CCState where
  include_files : List (String × List CodeFeature)
  ignore_files : List String
  diff_context : DiffContext
  code_map : Bool
  features : List CodeFeature
  diff : Option String
  pr_diff : Option String
  code_message_slot : Option (List String)
  code_message_checksum_slot : Option String
  use_llm : Bool
  config : Config
deriving DecidableEq, Repr

/-- `CodeContext.__init__`: empty include/ignore sets, class defaults for the
cache slot, `code_map` and `use_llm`. -/
def initState (diff pr_diff : Option String) (dc : DiffContext) (config : Config) :
    CCState :=
  { include_files := [], ignore_files := [], diff_context := dc, code_map := true,
    features := [], diff := diff, pr_diff := pr_diff, code_message_slot := none,
    code_message_checksum_slot := none, use_llm := false, config := config }

/-- Modelled from the spec §6 (`include_files.get_include_files`, not in src/):
resolve each path specification to a matching non-directory text file; each
resolved path maps to its whole-file feature (interval splitting guarantees
that the features produced for one path in a single call have pairwise
disjoint intervals); excluded paths are dropped and specifications matching
nothing are returned as `invalid_paths`. -/
def get_include_files (env : Env) (paths : List String)
    (exclude_paths : List String) : List (String × List CodeFeature) × List String :=
  let valid : String → Bool := fun p =>
    env.repo.any (fun f => f.path == p && !f.is_dir && f.is_text)
  let kept := paths.filter (fun p => valid p && decide (p ∉ exclude_paths))
  (kept.foldl (fun m p => aset m p [⟨p, .code, none, none, true⟩]) [],
   paths.filter (fun p => !(valid p)))

/-- Modelled from the spec (`include_files.get_ignore_files`, not in src/): the
resolved set of ignored paths. -/
def get_ignore_files (ignore_paths : List String) : List String :=
  ignore_paths

/-- `CodeContext.set_paths`: fall back to the diff's files when no paths are
given and a diff is configured, then resolve include and ignore sets. -/
def set_paths (env : Env) (paths exclude_paths ignore_paths : List String)
    (s : CCState) : CCState :=
  let paths :=
    if paths = [] ∧ (s.diff ≠ none ∨ s.pr_diff ≠ none) ∧ s.diff_context.files ≠ [] then
      s.diff_context.files
    else paths
  { s with include_files := (get_include_files env paths exclude_paths).1,
           ignore_files := get_ignore_files ignore_paths }

/-- `CodeContext.set_code_map`: disabled by configuration, or forcibly disabled
(also in the configuration) when ctags is unavailable, else enabled. -/
def set_code_map (env : Env) (s : CCState) : CCState :=
  if s.config.no_code_map then { s with code_map := false }
  else if env.ctags_disabled then
    { s with code_map := false, config := { s.config with no_code_map := true } }
  else { s with code_map := true }

/-- `CodeContext._get_include_features`: rebuild every pinned feature with a
fresh diff marker (set when any diff annotation intersects its interval) and
the pinned flag, sorted by repository-relative path. -/
def _get_include_features (s : CCState) : List CodeFeature :=
  let include_features := (s.include_files.map (fun e =>
    let annotations := s.diff_context.get_annotations e.1
    e.2.map (fun feature =>
      { feature with
        diff := if annotations.any (fun a => a.intersects feature.interval) then
            some s.diff_context.target
          else none,
        user_included := true }))).flatten
  sortByKey (fun f => pathKey f.path) include_features

/-- `CodeContext.include_file`: resolve the specification and append the
resolved features to the per-path lists (creating missing entries). -/
def include_file (env : Env) (path : String) (s : CCState) :
    CCState × List String × List String :=
  let resolved := get_include_files env [path] []
  let include_files := resolved.1.foldl (fun m e =>
    aset m e.1 ((alookup m e.1).getD [] ++ e.2)) s.include_files
  ({ s with include_files := include_files }, resolved.1.map Prod.fst, resolved.2)

/-- `CodeContext.exclude_file`: resolve the specification and delete the
resolved paths that are currently included. -/
def exclude_file (env : Env) (path : String) (s : CCState) :
    CCState × List String × List String :=
  let resolved := get_include_files env [path] []
  let removed := (resolved.1.map Prod.fst).filter
    (fun p => decide (p ∈ s.include_files.map Prod.fst))
  let include_files := resolved.1.foldl (fun m e =>
    if e.1 ∈ m.map Prod.fst then aerase m e.1 else m) s.include_files
  ({ s with include_files := include_files }, removed, resolved.2)

/-- Modelled from the spec §3 (`utils.sha256`, not in src/): an opaque
collision-free digest ("digest collisions aside"), modelled as the identity
injection on strings. -/
def sha256 (s : String) : String :=
  s

/-- Modelled from the spec (`code_file_manager.get_file_checksum`, not in
src/): the content digest of one file. -/
def get_file_checksum (env : Env) (p : String) : String :=
  sha256 (String.intercalate "\n" (((lookupFile env p).map RepoFile.content).getD []))

/-- The configuration fields serialized into the settings checksum
(`str(settings)` in the source). -/
structure Settings where
  code_map : Bool
  auto_tokens : Option Nat
  use_embeddings : Bool
  use_llm : Bool
  diff : Option String
  pr_diff : Option String
  max_tokens : Option Nat
  include_files : List (String × List CodeFeature)
deriving DecidableEq, Repr

def encodeBool : Bool → String
  | true => "T"
  | false => "F"

def encodeOptStr : Option String → String
  | none => "N"
  | some s => "S" ++ s

def encodeOptNat : Option Nat → String
  | none => "N"
  | some n => "S" ++ toString n

def encodeOptInterval : Option Interval → String
  | none => "N"
  | some i => toString i.start ++ ":" ++ toString i.stop

def encodeLevel : CodeMessageLevel → String
  | .code => "code"
  | .interval => "interval"
  | .cmap_full => "cmap_full"
  | .cmap => "cmap"
  | .file_name => "file_name"

def encodeFeature (f : CodeFeature) : String :=
  f.path ++ "#" ++ encodeLevel f.level ++ "#" ++ encodeOptInterval f.interval ++
    "#" ++ encodeOptStr f.diff ++ "#" ++ encodeBool f.user_included

def encodeIncludeFiles (m : List (String × List CodeFeature)) : String :=
  String.intercalate "|" (m.map (fun e =>
    e.1 ++ ">" ++ String.intercalate ";" (e.2.map encodeFeature)))

/-- The canonical serialization of `Settings` (`str(settings)`). -/
def encodeSettings (st : Settings) : String :=
  String.intercalate "," [encodeBool st.code_map, encodeOptNat st.auto_tokens,
    encodeBool st.use_embeddings, encodeBool st.use_llm, encodeOptStr st.diff,
    encodeOptStr st.pr_diff, encodeOptNat st.max_tokens,
    encodeIncludeFiles st.include_files]

/-- `CodeContext._get_code_message_checksum`: the digest of the tracked
features' file contents (deduplicated paths, first-occurrence order for the
Python set) concatenated with the digest of the serialized settings. -/
def _get_code_message_checksum (env : Env) (s : CCState) (max_tokens : Option Nat) :
    String :=
  let features_checksum :=
    if s.features = [] then ""
    else
      let feature_files := (s.features.map CodeFeature.path).eraseDups
      sha256 (String.join (feature_files.map (get_file_checksum env)))
  let settings : Settings :=
    ⟨s.code_map, s.config.auto_tokens, s.config.use_embeddings, s.use_llm,
      s.diff, s.pr_diff, max_tokens, s.include_files⟩
  features_checksum ++ sha256 (encodeSettings settings)

/-- Degrade a feature to a given level; spec §3: `interval` is set iff the
level is `INTERVAL`. -/
def setLevel (f : CodeFeature) (l : CodeMessageLevel) : CodeFeature :=
  { f with level := l, interval := if l = .interval then f.interval else none }

/-- Modelled from the spec §4.5: try the candidate's natural level first, then
each fallback level, returning the first rendering that fits the remaining
pool. -/
def tryLevels (env : Env) (model : String) (f : CodeFeature) (remaining : Nat) :
    List CodeMessageLevel → Option CodeFeature
  | [] => none
  | l :: ls =>
    let g := setLevel f l
    if count_feature_tokens env g model ≤ remaining then some g
    else tryLevels env model f remaining ls

/-- Modelled from the spec §4.5 (the heuristic variant behind
`auto_context.get_feature_selector`, not in src/): greedy scan in rank order;
paths already represented are skipped; a candidate that fits at no level is
omitted without cutting the scan short. -/
def selectGreedy (env : Env) (model : String) (alt_levels : List CodeMessageLevel) :
    List CodeFeature → Nat → List String → List CodeFeature
  | [], _, _ => []
  | f :: rest, remaining, seen =>
    if f.path ∈ seen then selectGreedy env model alt_levels rest remaining seen
    else
      match tryLevels env model f remaining (f.level :: alt_levels) with
      | some g =>
          g :: selectGreedy env model alt_levels rest
            (remaining - count_feature_tokens env g model) (f.path :: seen)
      | none => selectGreedy env model alt_levels rest remaining seen

/-- Modelled from the spec §4.5 (the LLM-assisted variant): validate the
external model's choice against the budget, discarding in rank order any
selection that would overflow it. -/
def validateBudget (env : Env) (model : String) :
    List CodeFeature → Nat → List CodeFeature
  | [], _ => []
  | f :: rest, remaining =>
    if count_feature_tokens env f model ≤ remaining then
      f :: validateBudget env model rest (remaining - count_feature_tokens env f model)
    else validateBudget env model rest remaining

/-- Modelled from the spec §4.5/§9 (`auto_context.get_feature_selector`, not in
src/): the selector is polymorphic over strategy, chosen by `use_llm`. -/
def featureSelect (env : Env) (use_llm : Bool) (candidates : List CodeFeature)
    (token_pool : Nat) (model : String) (alt_levels : List CodeMessageLevel)
    (prompt : String) : List CodeFeature :=
  if use_llm then validateBudget env model (env.llm_choice prompt candidates) token_pool
  else selectGreedy env model alt_levels candidates token_pool []

/-- The user-visible notice sent when similarity search is disabled. -/
def embeddingsDisabledNotice : String :=
  "Embeddings are disabled. Enable with `/config use_embeddings true`"

/-- `CodeContext.search`: with embeddings disabled return no results and emit a
notice; otherwise score every candidate feature, sort descending by score
(stably) and truncate to `max_results` when given.  Returns the scored results
and the notices sent to the stream. -/
def search (env : Env) (s : CCState) (query : String) (max_results : Option Nat)
    (level : CodeMessageLevel) : List (CodeFeature × Int) × List String :=
  if ¬ s.config.use_embeddings then
    ([], [embeddingsDisabledNotice])
  else
    let all_features := _get_all_features s.include_files s.ignore_files
      s.diff_context s.code_map level env max_chars_default
    let all_features_scored := all_features.map (fun f => (f, env.sim_score query f))
    let all_features_sorted :=
      sortByKey (fun p : CodeFeature × Int => -p.2) all_features_scored
    match max_results with
    | none => (all_features_sorted, [])
    | some n => (all_features_sorted.take n, [])

/-- The fixed preamble of the code message: the `Diff References` block when a
diff is present, then the `Code Files:` header. -/
def metaLines (s : CCState) : List String :=
  (if s.diff_context.files ≠ [] then
    ["Diff References:",
     " \"-\" = " ++ s.diff_context.target,
     " \"+\" = Active Changes",
     ""]
  else []) ++ ["Code Files:\n"]

/-- The token pool left for auto-selection before clamping:
`max(0, max_tokens - preamble - pinned)`; Python's `max(0, a - b)` is `Nat`
truncated subtraction. -/
def remainingTokens (env : Env) (model : String) (max_tokens : Nat) (s : CCState) :
    Nat :=
  max_tokens - count_tokens (metaLines s) model -
    ((_get_include_features s).map (fun f => count_feature_tokens env f model)).sum

/-- The feature-selection core of `CodeContext._get_code_message` (source lines
267-322), applied to the state after `set_code_map`: reserve budget for the
pinned features; with no remaining budget (or a zero auto limit) keep exactly
the sorted pinned features, otherwise clamp the auto pool, rank candidates
(pinned first) and run the selector. -/
def chooseFeatures (env : Env) (prompt model : String) (max_tokens : Nat)
    (s : CCState) : List CodeFeature :=
  let included_features := _get_include_features s
  let included_feature_tokens :=
    (included_features.map (fun f => count_feature_tokens env f model)).sum
  let remaining_tokens :=
    max_tokens - count_tokens (metaLines s) model - included_feature_tokens
  if remaining_tokens = 0 ∨ s.config.auto_tokens = some 0 then
    sortByKey (fun f => pathKey f.path) included_features
  else
    let auto_tokens :=
      match s.config.auto_tokens with
      | none => remaining_tokens
      | some a => min remaining_tokens a
    let selectable_tokens := included_feature_tokens + auto_tokens
    let candidate_features :=
      if prompt ≠ "" ∧ s.config.use_embeddings then
        (search env s prompt none .interval).1.map Prod.fst
      else
        _get_all_features s.include_files s.ignore_files s.diff_context
          s.code_map .interval env max_chars_default
    let candidate_features :=
      candidate_features.filter (fun f => f.user_included) ++
        candidate_features.filter (fun f => !f.user_included)
    let alt_levels :=
      if s.code_map then [CodeMessageLevel.cmap_full, .cmap, .file_name]
      else [CodeMessageLevel.file_name]
    featureSelect env s.use_llm candidate_features selectable_tokens model
      alt_levels prompt

/-- `CodeContext._get_code_message`: assemble the code message.  Returns the
rendered message (as lines) and the updated state (the new `self.features`,
plus whatever `set_code_map` wrote). -/
def _get_code_message (env : Env) (prompt model : String) (max_tokens : Nat)
    (s0 : CCState) : List String × CCState :=
  let s := set_code_map env s0
  let features := chooseFeatures env prompt model max_tokens s
  (metaLines s ++ get_code_message_from_features env features,
   { s with features := features })

/-- `CodeContext.get_code_message`: the single-slot checksum cache around the
builder.  The returned flag records whether the builder ran. -/
def get_code_message (env : Env) (prompt model : String) (max_tokens : Nat)
    (s : CCState) : List String × CCState × Bool :=
  let code_message_checksum := _get_code_message_checksum env s (some max_tokens)
  if s.code_message_slot = none ∨
      some code_message_checksum ≠ s.code_message_checksum_slot then
    let built := _get_code_message env prompt model max_tokens s
    let fresh := _get_code_message_checksum env built.2 (some max_tokens)
    (built.1,
     { built.2 with code_message_slot := some built.1,
                    code_message_checksum_slot := some fresh },
     true)
  else
    (s.code_message_slot.getD [], s, false)

/-- Two optional intervals overlap; a whole-file feature (`none`) overlaps
everything on its path. -/
def overlaps : Option Interval → Option Interval → Bool
  | none, _ => true
  | _, none => true
  | some i, some j => max i.start j.start < min i.stop j.stop

/-- The IncludeSet invariant of spec §3: among all pinned features, no two with
the same path have overlapping intervals. -/
def IncludeInv (s : CCState) : Prop :=
  ((s.include_files.map Prod.snd).flatten).Pairwise
    (fun f g => f.path = g.path → overlaps f.interval g.interval = false)

/-- States of the IncludeSet reachable through the public operations
`set_paths`, `include_file` and `exclude_file`. -/
inductive IncludeReachable (env : Env) : CCState → Prop
  | init (diff pr_diff : Option String) (dc : DiffContext) (config : Config) :
      IncludeReachable env (initState diff pr_diff dc config)
  | set_paths_step (paths exclude_paths ignore_paths : List String) (s : CCState)
      (hs : IncludeReachable env s) :
      IncludeReachable env (set_paths env paths exclude_paths ignore_paths s)
  | include_step (p : String) (s : CCState) (hs : IncludeReachable env s) :
      IncludeReachable env (include_file env p s).1
  | exclude_step (p : String) (s : CCState) (hs : IncludeReachable env s) :
      IncludeReachable env (exclude_file env p s).1

/-- Reachability restricted so that `include_file` is only applied to paths
not already included (the amendment forced by the double-include
counterexample). -/
inductive IncludeReachableD (env : Env) : CCState → Prop
  | init (diff pr_diff : Option String) (dc : DiffContext) (config : Config) :
      IncludeReachableD env (initState diff pr_diff dc config)
  | set_paths_step (paths exclude_paths ignore_paths : List String) (s : CCState)
      (hs : IncludeReachableD env s) :
      IncludeReachableD env (set_paths env paths exclude_paths ignore_paths s)
  | include_step (p : String) (s : CCState) (hs : IncludeReachableD env s)
      (hnew : p ∉ s.include_files.map Prod.fst) :
      IncludeReachableD env (include_file env p s).1
  | exclude_step (p : String) (s : CCState) (hs : IncludeReachableD env s) :
      IncludeReachableD env (exclude_file env p s).1

/-- A concrete engine and repository used by the counterexamples and
witnesses: one single-line text file `a.txt`, ctags unavailable, embeddings
scored 0, the LLM selector echoing its candidates. -/
def envEx : Env :=
  { repo := [⟨"a.txt", false, true, 4, ["aaaa"]⟩],
    ctags_disabled := true,
    symbol_intervals := fun _ => [],
    cmap_lines := fun _ => [],
    cmap_full_lines := fun _ => [],
    sim_score := fun _ _ => 0,
    llm_choice := fun _ c => c }

def cfgEx : Config :=
  ⟨false, none, false⟩

def dcEx : DiffContext :=
  ⟨"HEAD", []⟩

/-- A state with `a.txt` pinned by the user. -/
def sEx : CCState :=
  (include_file envEx "a.txt" (initState none none dcEx cfgEx)).1

/-- A two-file repository used by the cache-contract counterexample. -/
def envEx2 : Env :=
  { repo := [⟨"a.txt", false, true, 4, ["aaaa"]⟩, ⟨"b.txt", false, true, 3, ["bbb"]⟩],
    ctags_disabled := true,
    symbol_intervals := fun _ => [],
    cmap_lines := fun _ => [],
    cmap_full_lines := fun _ => [],
    sim_score := fun _ _ => 0,
    llm_choice := fun _ c => c }

def sC2A : CCState :=
  initState none none dcEx cfgEx

/-- The same state with `b.txt` ignored — a build input the checksum omits. -/
def sC2B : CCState :=
  { sC2A with ignore_files := ["b.txt"] }

/-- The admission predicate of `_get_all_features`: not a directory, text,
not ignored, within the size limit. -/
def admitted (ignore_files : List String) (max_chars : Nat) (file : RepoFile) :
    Prop :=
  ¬ file.is_dir ∧ file.is_text ∧ file.path ∉ ignore_files ∧ file.size ≤ max_chars

instance (ignore_files : List String) (max_chars : Nat) (file : RepoFile) :
    Decidable (admitted ignore_files max_chars file) :=
  inferInstanceAs (Decidable (_ ∧ _))

/-- The start line used for the tie order among same-path features. -/
def intervalStart (f : CodeFeature) : Nat :=
  (f.interval.map Interval.start).getD 0

/-- A state agreeing with `sC2A` on all build inputs but differing in the
previously tracked features and the cache slot. -/
def sC2X : CCState :=
  { sC2A with features := [⟨"a.txt", .code, none, none, false⟩],
              code_message_slot := some ["stale"] }

/-- The single full-file `CODE` feature produced for an admitted file when
interval features are requested with code maps disabled. -/
def fullCodeFeature (include_files : List (String × List CodeFeature))
    (diff_context : DiffContext) (file : RepoFile) : CodeFeature :=
  ⟨file.path, .code, none,
    if file.path ∈ diff_context.files then some diff_context.target else none,
    file.path ∈ include_files.map Prod.fst⟩

/-- Well-formedness of one IncludeSet entry: its features carry the entry's
path and have pairwise non-overlapping intervals. -/
def entryWF (e : String × List CodeFeature) : Prop :=
  (∀ f ∈ e.2, f.path = e.1) ∧
    e.2.Pairwise (fun f g => overlaps f.interval g.interval = false)

/-- The bookkeeping invariant behind `IncludeInv`: distinct keys and
well-formed entries. -/
def IncludeWF (s : CCState) : Prop :=
  (s.include_files.map Prod.fst).Nodup ∧ ∀ e ∈ s.include_files, entryWF e

instance (s : CCState) : Decidable (IncludeInv s) := by
  unfold IncludeInv
  infer_instance

/-- The doubly-included state: `a.txt` pinned twice through the public
`include_file` operation. -/
def sBad : CCState :=
  (include_file envEx "a.txt" (include_file envEx "a.txt"
    (initState none none dcEx cfgEx)).1).1

def cfgEmb : Config :=
  ⟨false, none, true⟩

def sEmb : CCState :=
  initState none none dcEx cfgEmb

end Mentat

/-- A concrete reachable broadcast state: one subscriber on channel `ch`. -/
def bcEx : BCState :=
  Broadcast.subEnter "ch" 0 ⟨[], ⟨[], [], []⟩⟩

/-- A backend state with two buffered events for the unsubscribed channel `a`. -/
def mbEx : MBState :=
  ⟨[], [("a", [⟨"a", "m1"⟩, ⟨"a", "m2"⟩])], []⟩


/-! ## Theorems -/

theorem sortByKey_perm {α κ : Type _} [LinearOrder κ] (key : α → κ) (l : List α) :
    List.Perm (sortByKey key l) l :=
  List.perm_insertionSort _ l

theorem sortByKey_sorted {α κ : Type _} [LinearOrder κ] (key : α → κ) (l : List α) :
    List.Sorted (keyLe key) (sortByKey key l) :=
  List.sorted_insertionSort _ l

theorem filter_orderedInsert_pos {α κ : Type _} [LinearOrder κ] [DecidableEq κ]
    (key : α → κ) (k : κ) (x : α) (hx : key x = k) (l : List α) :
    (List.orderedInsert (keyLe key) x l).filter (fun a => decide (key a = k)) =
      x :: l.filter (fun a => decide (key a = k)) := by
  induction l with
  | nil => simp [List.orderedInsert, hx]
  | cons b l ih =>
    simp only [List.orderedInsert]
    by_cases h : keyLe key x b
    · simp [h, hx]
    · have hb : key b ≠ k := by
        intro hbk
        exact h (by simp [keyLe, hx, hbk])
      simp [h, List.filter, hb, ih]

theorem filter_orderedInsert_neg {α κ : Type _} [LinearOrder κ] [DecidableEq κ]
    (key : α → κ) (k : κ) (x : α) (hx : key x ≠ k) (l : List α) :
    (List.orderedInsert (keyLe key) x l).filter (fun a => decide (key a = k)) =
      l.filter (fun a => decide (key a = k)) := by
  induction l with
  | nil => simp [List.orderedInsert, hx]
  | cons b l ih =>
    simp only [List.orderedInsert]
    by_cases h : keyLe key x b
    · simp [h, List.filter, hx]
    · by_cases hb : key b = k <;> simp [h, List.filter, hb, hx, ih]

/-- Stability of `sortByKey`: the subsequence of elements with any fixed key
value is unchanged by the sort (model of CPython's sort-stability guarantee). -/
theorem filter_sortByKey {α κ : Type _} [LinearOrder κ] [DecidableEq κ]
    (key : α → κ) (k : κ) (l : List α) :
    (sortByKey key l).filter (fun a => decide (key a = k)) =
      l.filter (fun a => decide (key a = k)) := by
  induction l with
  | nil => rfl
  | cons x xs ih =>
    have ih' : (List.insertionSort (keyLe key) xs).filter (fun a => decide (key a = k)) =
        xs.filter (fun a => decide (key a = k)) := ih
    simp only [sortByKey, List.insertionSort]
    by_cases hx : key x = k
    · rw [filter_orderedInsert_pos key k x hx]
      simp [List.filter, hx, ih']
    · rw [filter_orderedInsert_neg key k x hx]
      simp [List.filter, hx, ih']

theorem alookup_aset {β : Type _} (m : List (String × β)) (k : String) (v : β) :
    alookup (aset m k v) k = some v := by
  induction m with
  | nil => simp [aset, alookup]
  | cons e m ih =>
    by_cases h : e.1 = k <;> simp [aset, alookup, h, ih]

theorem alookup_aset_ne {β : Type _} (m : List (String × β)) (k k' : String) (v : β)
    (h : k ≠ k') : alookup (aset m k v) k' = alookup m k' := by
  induction m with
  | nil => simp [aset, alookup, h]
  | cons e m ih =>
    by_cases he : e.1 = k
    · subst he
      simp only [aset, if_pos rfl, alookup]
      rw [if_neg h, if_neg h]
    · by_cases he' : e.1 = k'
      · simp only [aset, if_neg he, alookup, if_pos he']
      · simp only [aset, if_neg he, alookup, if_neg he']
        exact ih

theorem alookup_eq_none {β : Type _} (m : List (String × β)) (k : String) :
    alookup m k = none ↔ k ∉ m.map Prod.fst := by
  induction m with
  | nil => simp [alookup]
  | cons e m ih =>
    simp only [alookup, List.map_cons, List.mem_cons]
    by_cases h : e.1 = k
    · simp [h]
    · simp only [if_neg h, ih]
      constructor
      · intro hk hor
        cases hor with
        | inl hh => exact h hh.symm
        | inr hh => exact hk hh
      · intro hk hh
        exact hk (Or.inr hh)

theorem alookup_aerase {β : Type _} (m : List (String × β)) (k : String)
    (hm : (m.map Prod.fst).Nodup) : alookup (aerase m k) k = none := by
  induction m with
  | nil => rfl
  | cons e m ih =>
    simp only [List.map_cons, List.nodup_cons] at hm
    by_cases h : e.1 = k
    · subst h
      simp only [aerase, if_pos rfl]
      exact (alookup_eq_none m e.1).2 hm.1
    · simp only [aerase, if_neg h, alookup, if_neg h]
      exact ih hm.2

theorem alookup_aerase_ne {β : Type _} (m : List (String × β)) (k k' : String)
    (h : k ≠ k') : alookup (aerase m k) k' = alookup m k' := by
  induction m with
  | nil => simp [aerase, alookup]
  | cons e m ih =>
    by_cases he : e.1 = k
    · subst he
      simp [aerase, alookup, h]
    · by_cases he' : e.1 = k'
      · simp only [aerase, if_neg he, alookup, if_pos he']
      · simp only [aerase, if_neg he, alookup, if_neg he']
        exact ih

theorem mem_insertIfAbsent {α : Type _} [DecidableEq α] (x y : α) (s : List α) :
    y ∈ insertIfAbsent x s ↔ y ∈ s ∨ y = x := by
  unfold insertIfAbsent
  by_cases h : x ∈ s
  · simp only [if_pos h]
    constructor
    · exact Or.inl
    · rintro (hy | rfl)
      · exact hy
      · exact h
  · simp [if_neg h]

theorem nodup_insertIfAbsent {α : Type _} [DecidableEq α] (x : α) (s : List α)
    (h : s.Nodup) : (insertIfAbsent x s).Nodup := by
  unfold insertIfAbsent
  by_cases hx : x ∈ s
  · simpa [hx]
  · simp [hx, h, List.nodup_append, List.disjoint_singleton]

theorem insertIfAbsent_ne_nil {α : Type _} [DecidableEq α] (x : α) (s : List α) :
    insertIfAbsent x s ≠ [] := by
  unfold insertIfAbsent
  by_cases hx : x ∈ s
  · simp only [if_pos hx]
    intro h
    rw [h] at hx
    exact absurd hx (List.not_mem_nil x)
  · simp only [if_neg hx]
    intro h
    exact absurd h (List.append_ne_nil_of_right_ne_nil s (by simp))

namespace MemoryBackend

theorem publish_subscribed (c : String) (msg : String) (s : MBState) :
    (publish c msg s).subscribed = s.subscribed := by
  unfold publish
  by_cases h : c ∈ s.subscribed <;> simp [h]

theorem foldl_publish_subscribed (es : List Event) (acc : MBState) :
    (es.foldl (fun a e => publish e.channel e.message a) acc).subscribed =
      acc.subscribed := by
  induction es generalizing acc with
  | nil => rfl
  | cons e es ih => rw [List.foldl_cons, ih, publish_subscribed]

theorem subscribe_subscribed (c : String) (s : MBState) :
    (subscribe c s).subscribed = insertIfAbsent c s.subscribed := by
  unfold subscribe
  rw [foldl_publish_subscribed]

/-- Re-publishing a list of events for an already-subscribed channel appends
them, in order, to the published queue and leaves the buffers untouched. -/
theorem foldl_publish_spec (c : String) (es : List Event) (acc : MBState)
    (hch : ∀ e ∈ es, e.channel = c) (hsub : c ∈ acc.subscribed) :
    (es.foldl (fun a e => publish e.channel e.message a) acc) =
      { acc with published := acc.published ++ es } := by
  induction es generalizing acc with
  | nil => simp
  | cons e es ih =>
    have hec : e.channel = c := hch e (List.mem_cons_self e es)
    rw [List.foldl_cons]
    have hsub' : e.channel ∈ acc.subscribed := by rw [hec]; exact hsub
    have hpub : publish e.channel e.message acc =
        { acc with published := acc.published ++ [e] } := by
      unfold publish
      rw [if_pos hsub']
    rw [hpub, ih { acc with published := acc.published ++ [e] }
      (fun x hx => hch x (List.mem_cons_of_mem e hx)) hsub]
    simp

end MemoryBackend

theorem mem_keys_aset {β : Type _} (m : List (String × β)) (k k' : String) (v : β) :
    k' ∈ (aset m k v).map Prod.fst ↔ k' ∈ m.map Prod.fst ∨ k' = k := by
  induction m with
  | nil => simp [aset]
  | cons e m ih =>
    by_cases h : e.1 = k
    · subst h
      rw [show aset (e :: m) e.1 v = (e.1, v) :: m from by simp [aset]]
      simp only [List.map_cons, List.mem_cons]
      tauto
    · rw [show aset (e :: m) k v = e :: aset m k v from by simp [aset, h]]
      simp only [List.map_cons, List.mem_cons, ih]
      tauto

theorem nodupKeys_aset {β : Type _} (m : List (String × β)) (k : String) (v : β)
    (h : (m.map Prod.fst).Nodup) : ((aset m k v).map Prod.fst).Nodup := by
  induction m with
  | nil => simp [aset]
  | cons e m ih =>
    simp only [List.map_cons, List.nodup_cons] at h
    by_cases he : e.1 = k
    · subst he
      simpa [aset] using h
    · simp only [aset, if_neg he, List.map_cons, List.nodup_cons]
      refine ⟨fun hmem => ?_, ih h.2⟩
      rcases (mem_keys_aset m k e.1 v).1 hmem with hm | hk
      · exact h.1 hm
      · exact he hk

theorem aerase_sublist {β : Type _} (m : List (String × β)) (k : String) :
    List.Sublist (aerase m k) m := by
  induction m with
  | nil => simp [aerase]
  | cons e m ih =>
    by_cases h : e.1 = k
    · simp only [aerase, if_pos h]
      exact List.sublist_cons_self e m
    · simp only [aerase, if_neg h]
      exact List.Sublist.cons₂ e ih

theorem nodupKeys_aerase {β : Type _} (m : List (String × β)) (k : String)
    (h : (m.map Prod.fst).Nodup) : ((aerase m k).map Prod.fst).Nodup :=
  h.sublist ((aerase_sublist m k).map Prod.fst)

namespace Broadcast

/-- Every reachable `Broadcast` state satisfies the reference-counting
invariant, together with the duplicate-freeness bookkeeping the induction
needs. -/
theorem reachable_inv {s : BCState} (h : Reachable s) : Inv s := by
  induction h with
  | init =>
    exact ⟨List.nodup_nil, List.nodup_nil, fun c => by simp [getSubs, alookup]⟩
  | enterStep c q s hs ih =>
    obtain ⟨hnd, hknd, hiff⟩ := ih
    by_cases hc : (alookup s.subscribers c).getD [] = []
    · have hEq : subEnter c q s =
          { subscribers := aset (aset s.subscribers c []) c [q],
            backend := MemoryBackend.subscribe c s.backend } := by
        simp [subEnter, if_pos hc, getSubs, alookup_aset, insertIfAbsent]
      rw [hEq]
      refine ⟨?_, ?_, fun d => ?_⟩
      · show (MemoryBackend.subscribe c s.backend).subscribed.Nodup
        rw [MemoryBackend.subscribe_subscribed]
        exact nodup_insertIfAbsent c _ hnd
      · exact nodupKeys_aset _ c _ (nodupKeys_aset _ c _ hknd)
      · show d ∈ (MemoryBackend.subscribe c s.backend).subscribed ↔ _
        rw [MemoryBackend.subscribe_subscribed, mem_insertIfAbsent]
        by_cases hd : d = c
        · subst hd
          simp [getSubs, alookup_aset]
        · have h1 : getSubs
              { subscribers := aset (aset s.subscribers c []) c [q],
                backend := MemoryBackend.subscribe c s.backend } d = getSubs s d := by
            simp only [getSubs]
            rw [alookup_aset_ne _ c d _ fun hh => hd hh.symm,
              alookup_aset_ne _ c d _ fun hh => hd hh.symm]
          rw [h1]
          constructor
          · rintro (hmem | rfl)
            · exact (hiff d).1 hmem
            · exact absurd rfl hd
          · intro hne
            exact Or.inl ((hiff d).2 hne)
    · have hEq : subEnter c q s =
          { s with subscribers := aset s.subscribers c (insertIfAbsent q (getSubs s c)) } := by
        simp only [subEnter, if_neg hc]
      rw [hEq]
      refine ⟨hnd, nodupKeys_aset _ c _ hknd, fun d => ?_⟩
      show d ∈ s.backend.subscribed ↔ _
      by_cases hd : d = c
      · subst hd
        have h2 : getSubs
            { s with subscribers := aset s.subscribers d (insertIfAbsent q (getSubs s d)) } d =
            insertIfAbsent q (getSubs s d) := by
          simp [getSubs, alookup_aset]
        rw [h2]
        constructor
        · intro _
          exact insertIfAbsent_ne_nil q _
        · intro _
          exact (hiff d).2 hc
      · have h2 : getSubs
            { s with subscribers := aset s.subscribers c (insertIfAbsent q (getSubs s c)) } d =
            getSubs s d := by
          simp only [getSubs]
          rw [alookup_aset_ne _ c d _ fun hh => hd hh.symm]
        rw [h2]
        exact hiff d
  | exitStep c q s hs hq ih =>
    obtain ⟨hnd, hknd, hiff⟩ := ih
    by_cases hempty : (getSubs s c).erase q = []
    · have hEq : subExit c q s =
          { subscribers := aerase s.subscribers c,
            backend := MemoryBackend.unsubscribe c s.backend } := by
        simp only [subExit, if_pos hempty]
      rw [hEq]
      refine ⟨hnd.erase c, nodupKeys_aerase _ c hknd, fun d => ?_⟩
      show d ∈ (MemoryBackend.unsubscribe c s.backend).subscribed ↔ _
      by_cases hd : d = c
      · subst hd
        have h2 : getSubs
            { subscribers := aerase s.subscribers d,
              backend := MemoryBackend.unsubscribe d s.backend } d = [] := by
          simp only [getSubs]
          rw [alookup_aerase _ d hknd]
          rfl
        rw [h2]
        show d ∈ s.backend.subscribed.erase d ↔ ([] : List Nat) ≠ []
        constructor
        · intro hmem
          exact absurd hmem hnd.not_mem_erase
        · intro hne
          exact absurd rfl hne
      · have h2 : getSubs
            { subscribers := aerase s.subscribers c,
              backend := MemoryBackend.unsubscribe c s.backend } d = getSubs s d := by
          simp only [getSubs]
          rw [alookup_aerase_ne _ c d fun hh => hd hh.symm]
        rw [h2]
        show d ∈ s.backend.subscribed.erase c ↔ getSubs s d ≠ []
        rw [List.mem_erase_of_ne hd]
        exact hiff d
    · have hEq : subExit c q s =
          { s with subscribers := aset s.subscribers c ((getSubs s c).erase q) } := by
        simp only [subExit, if_neg hempty]
      rw [hEq]
      refine ⟨hnd, nodupKeys_aset _ c _ hknd, fun d => ?_⟩
      show d ∈ s.backend.subscribed ↔ _
      by_cases hd : d = c
      · subst hd
        have h2 : getSubs
            { s with subscribers := aset s.subscribers d ((getSubs s d).erase q) } d =
            (getSubs s d).erase q := by
          simp [getSubs, alookup_aset]
        rw [h2]
        constructor
        · intro _
          exact hempty
        · intro _
          exact (hiff d).2 (List.ne_nil_of_mem hq)
      · have h2 : getSubs
            { s with subscribers := aset s.subscribers c ((getSubs s c).erase q) } d =
            getSubs s d := by
          simp only [getSubs]
          rw [alookup_aset_ne _ c d _ fun hh => hd hh.symm]
        rw [h2]
        exact hiff d
  | publishStep c msg s hs ih =>
    obtain ⟨hnd, hknd, hiff⟩ := ih
    refine ⟨?_, hknd, fun d => ?_⟩
    · show (MemoryBackend.publish c msg s.backend).subscribed.Nodup
      rw [MemoryBackend.publish_subscribed]
      exact hnd
    · show d ∈ (MemoryBackend.publish c msg s.backend).subscribed ↔ _
      rw [MemoryBackend.publish_subscribed]
      exact hiff d
  | listenStep s hs ih =>
    obtain ⟨hnd, hknd, hiff⟩ := ih
    exact ⟨hnd, hknd, hiff⟩

end Broadcast

namespace Mentat

theorem count_tokens_append (a b : List String) (model : String) :
    count_tokens (a ++ b) model = count_tokens a model + count_tokens b model := by
  simp [count_tokens]

theorem count_tokens_join (ls : List (List String)) (model : String) :
    count_tokens ls.flatten model = (ls.map (fun l => count_tokens l model)).sum := by
  induction ls with
  | nil => rfl
  | cons l ls ih => simp [List.flatten, count_tokens_append, ih]

theorem tryLevels_le (env : Env) (model : String) (f : CodeFeature) (remaining : Nat) :
    ∀ (ls : List CodeMessageLevel) (g : CodeFeature),
      tryLevels env model f remaining ls = some g →
      count_feature_tokens env g model ≤ remaining := by
  intro ls
  induction ls with
  | nil => intro g hg; simp [tryLevels] at hg
  | cons l ls ih =>
    intro g hg
    unfold tryLevels at hg
    by_cases hfit : count_feature_tokens env (setLevel f l) model ≤ remaining
    · simp only [if_pos hfit] at hg
      cases hg
      exact hfit
    · simp only [if_neg hfit] at hg
      exact ih g hg

theorem sum_selectGreedy_le (env : Env) (model : String)
    (alt_levels : List CodeMessageLevel) :
    ∀ (cands : List CodeFeature) (remaining : Nat) (seen : List String),
      ((selectGreedy env model alt_levels cands remaining seen).map
        (fun f => count_feature_tokens env f model)).sum ≤ remaining := by
  intro cands
  induction cands with
  | nil =>
    intro r seen
    simp [selectGreedy]
  | cons f rest ih =>
    intro r seen
    unfold selectGreedy
    by_cases hseen : f.path ∈ seen
    · simp only [if_pos hseen]
      exact ih r seen
    · simp only [if_neg hseen]
      cases htry : tryLevels env model f r (f.level :: alt_levels) with
      | none => exact ih r seen
      | some g =>
        have hg : count_feature_tokens env g model ≤ r :=
          tryLevels_le env model f r _ g htry
        simp only [List.map_cons, List.sum_cons]
        have hrest := ih (r - count_feature_tokens env g model) (f.path :: seen)
        omega

theorem sum_validateBudget_le (env : Env) (model : String) :
    ∀ (cands : List CodeFeature) (remaining : Nat),
      ((validateBudget env model cands remaining).map
        (fun f => count_feature_tokens env f model)).sum ≤ remaining := by
  intro cands
  induction cands with
  | nil =>
    intro r
    simp [validateBudget]
  | cons f rest ih =>
    intro r
    unfold validateBudget
    by_cases hfit : count_feature_tokens env f model ≤ r
    · simp only [if_pos hfit, List.map_cons, List.sum_cons]
      have hrest := ih (r - count_feature_tokens env f model)
      omega
    · simp only [if_neg hfit]
      exact ih r

/-- Both selector variants respect the token pool (spec §4.5). -/
theorem sum_featureSelect_le (env : Env) (use_llm : Bool)
    (candidates : List CodeFeature) (token_pool : Nat) (model : String)
    (alt_levels : List CodeMessageLevel) (prompt : String) :
    ((featureSelect env use_llm candidates token_pool model alt_levels prompt).map
      (fun f => count_feature_tokens env f model)).sum ≤ token_pool := by
  unfold featureSelect
  by_cases h : use_llm = true
  · simp only [if_pos h]
    exact sum_validateBudget_le env model _ token_pool
  · simp only [if_neg h]
    exact sum_selectGreedy_le env model alt_levels candidates token_pool []

/-- The token count of an assembled message is the preamble's count plus the
per-feature counts. -/
theorem count_tokens_message (env : Env) (s : CCState) (model : String)
    (feats : List CodeFeature) :
    count_tokens (metaLines s ++ get_code_message_from_features env feats) model =
      count_tokens (metaLines s) model +
        (feats.map (fun f => count_feature_tokens env f model)).sum := by
  rw [count_tokens_append]
  unfold get_code_message_from_features
  rw [count_tokens_join]
  simp only [count_feature_tokens, List.map_map]
  rfl

/-- A permutation of features has the same total token count. -/
theorem sum_perm_features (env : Env) (model : String) (l1 l2 : List CodeFeature)
    (h : List.Perm l1 l2) :
    (l1.map (fun f => count_feature_tokens env f model)).sum =
      (l2.map (fun f => count_feature_tokens env f model)).sum :=
  (h.map (fun f => count_feature_tokens env f model)).sum_eq

/-- The preamble plus the chosen features fit the budget whenever the pinned
reservation leaves a positive remainder. -/
theorem sum_chooseFeatures_le (env : Env) (prompt model : String) (max_tokens : Nat)
    (s : CCState) (h : 0 < remainingTokens env model max_tokens s) :
    count_tokens (metaLines s) model +
      ((chooseFeatures env prompt model max_tokens s).map
        (fun f => count_feature_tokens env f model)).sum ≤ max_tokens := by
  unfold remainingTokens at h
  simp only [chooseFeatures]
  split
  · have hperm := sum_perm_features env model _ _
      (sortByKey_perm (fun f => pathKey f.path) (_get_include_features s))
    omega
  · refine le_trans
      (Nat.add_le_add_left (sum_featureSelect_le env s.use_llm _ _ model _ prompt) _) ?_
    cases hat : s.config.auto_tokens with
    | none =>
      simp only [hat]
      omega
    | some a =>
      simp only [hat]
      have hmin := Nat.min_le_left
        (max_tokens - count_tokens (metaLines s) model -
          ((_get_include_features s).map (fun f => count_feature_tokens env f model)).sum) a
      omega

/-- C1 (amended): when the preamble and pinned content leave a positive token
remainder, the rendered message fits within `max_tokens`. -/
theorem rendered_message_within_budget (env : Env) (prompt model : String)
    (max_tokens : Nat) (s : CCState)
    (h : 0 < remainingTokens env model max_tokens (set_code_map env s)) :
    count_tokens (_get_code_message env prompt model max_tokens s).1 model ≤
      max_tokens := by
  have hmsg : (_get_code_message env prompt model max_tokens s).1 =
      metaLines (set_code_map env s) ++ get_code_message_from_features env
        (chooseFeatures env prompt model max_tokens (set_code_map env s)) := rfl
  rw [hmsg, count_tokens_message]
  exact sum_chooseFeatures_le env prompt model max_tokens _ h

/-- C1 (counterexample): with `a.txt` pinned and a budget of 1 token, the
build still renders the pinned file and the message exceeds the budget. -/
theorem rendered_message_budget_counterexample :
    ¬ (count_tokens (_get_code_message envEx "" "gpt" 1 sEx).1 "gpt" ≤ 1) := by
  decide

theorem rendered_message_within_budget_witness :
    0 < remainingTokens envEx "gpt" 100 (set_code_map envEx sEx) ∧
      count_tokens (_get_code_message envEx "" "gpt" 100 sEx).1 "gpt" ≤ 100 :=
  ⟨by decide, rendered_message_within_budget envEx "" "gpt" 100 sEx (by decide)⟩

/-- C4: when the remaining pool is zero or the configured auto limit is zero,
auto-selection is skipped and the result is exactly the pinned features sorted
by repository-relative path, with the message assembled from them. -/
theorem auto_pool_zero_yields_sorted_pinned (env : Env) (prompt model : String)
    (max_tokens : Nat) (s : CCState)
    (h : remainingTokens env model max_tokens (set_code_map env s) = 0 ∨
      s.config.auto_tokens = some 0) :
    (_get_code_message env prompt model max_tokens s).2.features =
      sortByKey (fun f => pathKey f.path) (_get_include_features (set_code_map env s)) ∧
    (_get_code_message env prompt model max_tokens s).1 =
      metaLines (set_code_map env s) ++
        get_code_message_from_features env
          (sortByKey (fun f => pathKey f.path) (_get_include_features (set_code_map env s))) := by
  have hauto : (set_code_map env s).config.auto_tokens = s.config.auto_tokens := by
    unfold set_code_map
    split_ifs <;> rfl
  have hch : chooseFeatures env prompt model max_tokens (set_code_map env s) =
      sortByKey (fun f => pathKey f.path) (_get_include_features (set_code_map env s)) := by
    simp only [chooseFeatures]
    rw [if_pos]
    rcases h with h | h
    · exact Or.inl h
    · exact Or.inr (by rw [hauto]; exact h)
  exact ⟨hch, by
    have hmsg : (_get_code_message env prompt model max_tokens s).1 =
        metaLines (set_code_map env s) ++ get_code_message_from_features env
          (chooseFeatures env prompt model max_tokens (set_code_map env s)) := rfl
    rw [hmsg, hch]⟩

theorem auto_pool_zero_yields_sorted_pinned_witness :
    (_get_code_message envEx "" "gpt" 1 sEx).2.features =
      sortByKey (fun f => pathKey f.path) (_get_include_features (set_code_map envEx sEx)) ∧
    (_get_code_message envEx "" "gpt" 1 sEx).1 =
      metaLines (set_code_map envEx sEx) ++
        get_code_message_from_features envEx
          (sortByKey (fun f => pathKey f.path) (_get_include_features (set_code_map envEx sEx))) :=
  auto_pool_zero_yields_sorted_pinned envEx "" "gpt" 1 sEx (Or.inl (by decide))

/-- A call on a state whose cache slot holds a message together with the
checksum of that very state is a cache hit. -/
theorem second_call_hits (env : Env) (prompt model : String) (max_tokens : Nat)
    (X : CCState) (m : List String) :
    get_code_message env prompt model max_tokens
      { X with code_message_slot := some m,
               code_message_checksum_slot :=
                 some (_get_code_message_checksum env X (some max_tokens)) } =
    (m, { X with code_message_slot := some m,
                 code_message_checksum_slot :=
                   some (_get_code_message_checksum env X (some max_tokens)) },
     false) := by
  unfold get_code_message
  rw [if_neg]
  · rfl
  · rintro (hnone | hne)
    · exact Option.noConfusion hnone
    · exact hne rfl

/-- C3: calling `get_code_message` twice in a row with unchanged repository and
configuration returns the identical message, the second call is a cache hit
(the builder does not run), and the state is unchanged by the second call. -/
theorem get_code_message_idempotent (env : Env) (prompt model : String)
    (max_tokens : Nat) (s : CCState) :
    (get_code_message env prompt model max_tokens
        (get_code_message env prompt model max_tokens s).2.1).1 =
      (get_code_message env prompt model max_tokens s).1 ∧
    (get_code_message env prompt model max_tokens
        (get_code_message env prompt model max_tokens s).2.1).2.2 = false ∧
    (get_code_message env prompt model max_tokens
        (get_code_message env prompt model max_tokens s).2.1).2.1 =
      (get_code_message env prompt model max_tokens s).2.1 := by
  by_cases hc : s.code_message_slot = none ∨
      some (_get_code_message_checksum env s (some max_tokens)) ≠
        s.code_message_checksum_slot
  · have h1 : get_code_message env prompt model max_tokens s =
        ((_get_code_message env prompt model max_tokens s).1,
         { (_get_code_message env prompt model max_tokens s).2 with
             code_message_slot :=
               some (_get_code_message env prompt model max_tokens s).1,
             code_message_checksum_slot :=
               some (_get_code_message_checksum env
                 (_get_code_message env prompt model max_tokens s).2 (some max_tokens)) },
         true) := by
      unfold get_code_message
      rw [if_pos hc]
    rw [h1]
    dsimp only
    rw [second_call_hits env prompt model max_tokens
      (_get_code_message env prompt model max_tokens s).2
      (_get_code_message env prompt model max_tokens s).1]
    exact ⟨rfl, rfl, rfl⟩
  · have h1 : get_code_message env prompt model max_tokens s =
        (s.code_message_slot.getD [], s, false) := by
      unfold get_code_message
      rw [if_neg hc]
    rw [h1]
    dsimp only
    rw [h1]
    exact ⟨rfl, rfl, rfl⟩

/-- C2 (counterexample): two builds with equal checksums (the ignored-path set
is not part of the checksum) produce different rendered messages. -/
theorem equal_checksum_unequal_result :
    _get_code_message_checksum envEx2 sC2A (some 100) =
      _get_code_message_checksum envEx2 sC2B (some 100) ∧
    (_get_code_message envEx2 "" "gpt" 100 sC2A).1 ≠
      (_get_code_message envEx2 "" "gpt" 100 sC2B).1 := by
  constructor
  · rfl
  · decide

/-- C2 (amended): two builds agreeing on every checksum input *and* on the
inputs the checksum omits (the ignored-path set, the diff context and, being
the same engine, the repository and prompt) produce equal rendered messages
and feature sequences, and their stored checksums agree. -/
theorem build_determined_by_inputs (env : Env) (prompt model : String)
    (max_tokens : Nat) (s1 s2 : CCState)
    (hinc : s1.include_files = s2.include_files)
    (hign : s1.ignore_files = s2.ignore_files)
    (hdc : s1.diff_context = s2.diff_context)
    (hcfg : s1.config = s2.config)
    (hllm : s1.use_llm = s2.use_llm)
    (hdiff : s1.diff = s2.diff)
    (hpr : s1.pr_diff = s2.pr_diff) :
    (_get_code_message env prompt model max_tokens s1).1 =
      (_get_code_message env prompt model max_tokens s2).1 ∧
    (_get_code_message env prompt model max_tokens s1).2.features =
      (_get_code_message env prompt model max_tokens s2).2.features ∧
    _get_code_message_checksum env (_get_code_message env prompt model max_tokens s1).2
        (some max_tokens) =
      _get_code_message_checksum env (_get_code_message env prompt model max_tokens s2).2
        (some max_tokens) := by
  obtain ⟨inc1, ign1, dc1, cm1, ft1, d1, pd1, cs1, cc1, ul1, cf1⟩ := s1
  obtain ⟨inc2, ign2, dc2, cm2, ft2, d2, pd2, cs2, cc2, ul2, cf2⟩ := s2
  dsimp only at hinc hign hdc hcfg hllm hdiff hpr
  subst hinc hign hdc hcfg hllm hdiff hpr
  unfold _get_code_message set_code_map
  split_ifs <;> exact ⟨rfl, rfl, rfl⟩

theorem pathKey_inj (a b : String) : pathKey a = pathKey b ↔ a = b := by
  constructor
  · intro h
    have hinj : Function.Injective Char.toNat :=
      fun c d hcd => Char.ext (UInt32.toNat.inj hcd)
    have hdata : a.data = b.data := List.map_injective_iff.mpr hinj h
    cases a
    cases b
    simp only at hdata
    rw [hdata]
  · intro h
    rw [h]

theorem split_path (env : Env) (ff : CodeFeature) (u : List CodeFeature) :
    ∀ f ∈ split_file_into_intervals env ff u, f.path = ff.path := by
  intro f hf
  unfold split_file_into_intervals at hf
  cases hmi : env.symbol_intervals ff.path with
  | nil =>
    rw [hmi] at hf
    cases hf with
    | head => rfl
    | tail _ h => cases h
  | cons i is =>
    rw [hmi] at hf
    simp only [List.mem_map] at hf
    obtain ⟨iv, _, rfl⟩ := hf
    rfl

theorem split_ne_nil (env : Env) (ff : CodeFeature) (u : List CodeFeature) :
    split_file_into_intervals env ff u ≠ [] := by
  unfold split_file_into_intervals
  cases hmi : env.symbol_intervals ff.path with
  | nil => simp
  | cons i is =>
    intro hcon
    have hlen := congrArg List.length hcon
    rw [List.length_map] at hlen
    have hperm := sortByKey_perm Interval.start (i :: is)
    rw [hperm.length_eq] at hlen
    simp at hlen

theorem split_pairwise_start (env : Env) (ff : CodeFeature) (u : List CodeFeature) :
    (split_file_into_intervals env ff u).Pairwise
      (fun f g => intervalStart f ≤ intervalStart g) := by
  unfold split_file_into_intervals
  cases hmi : env.symbol_intervals ff.path with
  | nil => simp
  | cons i is =>
    have hs := sortByKey_sorted Interval.start (i :: is)
    refine List.Pairwise.map _ ?_ hs
    intro a b hab
    simpa [intervalStart] using hab

theorem perFileFeatures_path (include_files : List (String × List CodeFeature))
    (ignore_files : List String) (diff_context : DiffContext) (code_map : Bool)
    (level : CodeMessageLevel) (env : Env) (max_chars : Nat) (file : RepoFile) :
    ∀ f ∈ perFileFeatures include_files ignore_files diff_context code_map level env
      max_chars file, f.path = file.path := by
  intro f hf
  unfold perFileFeatures at hf
  by_cases hadm : file.is_dir ∨ ¬ file.is_text ∨ file.path ∈ ignore_files ∨
      file.size > max_chars
  · rw [if_pos hadm] at hf
    cases hf
  · rw [if_neg hadm] at hf
    by_cases hl : level = CodeMessageLevel.interval
    · rw [if_pos hl] at hf
      by_cases hcm : code_map
      · rw [if_neg (by simp [hcm])] at hf
        exact split_path env _ _ f hf
      · rw [if_pos (by simp [hcm])] at hf
        rw [List.mem_singleton] at hf
        subst hf
        rfl
    · rw [if_neg hl] at hf
      rw [List.mem_singleton] at hf
      subst hf
      rfl

theorem perFileFeatures_eq_nil (include_files : List (String × List CodeFeature))
    (ignore_files : List String) (diff_context : DiffContext) (code_map : Bool)
    (level : CodeMessageLevel) (env : Env) (max_chars : Nat) (file : RepoFile)
    (h : ¬ admitted ignore_files max_chars file) :
    perFileFeatures include_files ignore_files diff_context code_map level env
      max_chars file = [] := by
  unfold perFileFeatures
  rw [if_pos]
  unfold admitted at h
  by_cases h1 : file.is_dir
  · exact Or.inl h1
  · by_cases h2 : file.is_text
    · by_cases h3 : file.path ∈ ignore_files
      · exact Or.inr (Or.inr (Or.inl h3))
      · refine Or.inr (Or.inr (Or.inr ?_))
        by_cases h4 : file.size ≤ max_chars
        · exact absurd ⟨h1, h2, h3, h4⟩ h
        · omega
    · exact Or.inr (Or.inl h2)

theorem perFileFeatures_ne_nil (include_files : List (String × List CodeFeature))
    (ignore_files : List String) (diff_context : DiffContext) (code_map : Bool)
    (level : CodeMessageLevel) (env : Env) (max_chars : Nat) (file : RepoFile)
    (h : admitted ignore_files max_chars file) :
    perFileFeatures include_files ignore_files diff_context code_map level env
      max_chars file ≠ [] := by
  obtain ⟨h1, h2, h3, h4⟩ := h
  unfold perFileFeatures
  rw [if_neg]
  · by_cases hl : level = CodeMessageLevel.interval
    · rw [if_pos hl]
      by_cases hcm : code_map
      · rw [if_neg (by simp [hcm])]
        exact split_ne_nil env _ _
      · rw [if_pos (by simp [hcm])]
        simp
    · rw [if_neg hl]
      simp
  · rintro (hc | hc | hc | hc)
    · exact h1 hc
    · exact hc h2
    · exact h3 hc
    · omega

theorem perFileFeatures_pairwise_start
    (include_files : List (String × List CodeFeature))
    (ignore_files : List String) (diff_context : DiffContext) (code_map : Bool)
    (level : CodeMessageLevel) (env : Env) (max_chars : Nat) (file : RepoFile) :
    (perFileFeatures include_files ignore_files diff_context code_map level env
      max_chars file).Pairwise (fun f g => intervalStart f ≤ intervalStart g) := by
  unfold perFileFeatures
  by_cases hadm : file.is_dir ∨ ¬ file.is_text ∨ file.path ∈ ignore_files ∨
      file.size > max_chars
  · rw [if_pos hadm]
    exact List.Pairwise.nil
  · rw [if_neg hadm]
    by_cases hl : level = CodeMessageLevel.interval
    · rw [if_pos hl]
      by_cases hcm : code_map
      · rw [if_neg (by simp [hcm])]
        exact split_pairwise_start env _ _
      · rw [if_pos (by simp [hcm])]
        simp
    · rw [if_neg hl]
      simp

theorem build_determined_by_inputs_witness :
    (_get_code_message envEx2 "" "gpt" 100 sC2A).1 =
      (_get_code_message envEx2 "" "gpt" 100 sC2X).1 ∧
    (_get_code_message envEx2 "" "gpt" 100 sC2A).2.features =
      (_get_code_message envEx2 "" "gpt" 100 sC2X).2.features ∧
    _get_code_message_checksum envEx2 (_get_code_message envEx2 "" "gpt" 100 sC2A).2
        (some 100) =
      _get_code_message_checksum envEx2 (_get_code_message envEx2 "" "gpt" 100 sC2X).2
        (some 100) :=
  build_determined_by_inputs envEx2 "" "gpt" 100 sC2A sC2X rfl rfl rfl rfl rfl rfl rfl

theorem perFileFeatures_no_code_map (include_files : List (String × List CodeFeature))
    (ignore_files : List String) (diff_context : DiffContext) (env : Env)
    (max_chars : Nat) (file : RepoFile) :
    perFileFeatures include_files ignore_files diff_context false .interval env
      max_chars file =
      if admitted ignore_files max_chars file then
        [fullCodeFeature include_files diff_context file]
      else [] := by
  by_cases hadm : admitted ignore_files max_chars file
  · rw [if_pos hadm]
    obtain ⟨h1, h2, h3, h4⟩ := hadm
    unfold perFileFeatures
    rw [if_neg, if_pos rfl, if_pos (by simp)]
    · rfl
    · rintro (hc | hc | hc | hc)
      · exact h1 hc
      · exact hc h2
      · exact h3 hc
      · omega
  · rw [if_neg hadm]
    exact perFileFeatures_eq_nil _ _ _ _ _ _ _ _ hadm

theorem flatten_ite_singleton {α β : Type _} (P : α → Prop) [DecidablePred P]
    (g : α → β) (l : List α) :
    ((l.map (fun a => if P a then [g a] else [])).flatten) =
      (l.filter (fun a => decide (P a))).map g := by
  induction l with
  | nil => rfl
  | cons a l ih =>
    by_cases h : P a <;> simp [h, ih]

/-- C6: at `INTERVAL` level with code maps disabled, every admitted file yields
exactly one full-file feature at `CODE` level (the output is a permutation of
one full-file `CODE` feature per admitted file; it contains no interval
features). -/
theorem interval_no_code_map_full_files
    (include_files : List (String × List CodeFeature)) (ignore_files : List String)
    (diff_context : DiffContext) (env : Env) (max_chars : Nat) :
    List.Perm (_get_all_features include_files ignore_files diff_context false
        .interval env max_chars)
      ((env.repo.filter (fun file => decide (admitted ignore_files max_chars file))).map
        (fullCodeFeature include_files diff_context)) ∧
    ∀ f ∈ _get_all_features include_files ignore_files diff_context false .interval
        env max_chars, f.level = .code ∧ f.interval = none := by
  have hmap : env.repo.map (perFileFeatures include_files ignore_files diff_context
        false .interval env max_chars) =
      env.repo.map (fun file => if admitted ignore_files max_chars file then
        [fullCodeFeature include_files diff_context file] else []) :=
    List.map_congr_left (fun file _ =>
      perFileFeatures_no_code_map include_files ignore_files diff_context env
        max_chars file)
  have hperm : List.Perm (_get_all_features include_files ignore_files diff_context
        false .interval env max_chars)
      ((env.repo.map (perFileFeatures include_files ignore_files diff_context
        false .interval env max_chars)).flatten) :=
    sortByKey_perm _ _
  rw [hmap, flatten_ite_singleton] at hperm
  refine ⟨hperm, fun f hf => ?_⟩
  have hf2 := hperm.mem_iff.1 hf
  rw [List.mem_map] at hf2
  obtain ⟨file, _, rfl⟩ := hf2
  exact ⟨rfl, rfl⟩

theorem interval_no_code_map_full_files_witness :
    List.Perm (_get_all_features [] [] dcEx false .interval envEx2 max_chars_default)
      ((envEx2.repo.filter (fun file => decide (admitted [] max_chars_default file))).map
        (fullCodeFeature [] dcEx)) ∧
    ∀ f ∈ _get_all_features [] [] dcEx false .interval envEx2 max_chars_default,
      f.level = .code ∧ f.interval = none :=
  interval_no_code_map_full_files [] [] dcEx envEx2 max_chars_default

theorem filter_flatten_blocks (include_files : List (String × List CodeFeature))
    (ignore_files : List String) (diff_context : DiffContext) (code_map : Bool)
    (level : CodeMessageLevel) (env : Env) (max_chars : Nat) (p : String) :
    ∀ (repo : List RepoFile), (repo.map RepoFile.path).Nodup →
    (((repo.map (perFileFeatures include_files ignore_files diff_context code_map
        level env max_chars)).flatten).filter
      (fun f => decide (f.path = p))).Pairwise
        (fun f g => intervalStart f ≤ intervalStart g) := by
  intro repo
  induction repo with
  | nil =>
    intro _
    simp
  | cons file rest ih =>
    intro hnd
    simp only [List.map_cons, List.nodup_cons] at hnd
    simp only [List.map_cons, List.flatten_cons, List.filter_append]
    by_cases hp : file.path = p
    · have hhead : (perFileFeatures include_files ignore_files diff_context code_map
          level env max_chars file).filter (fun f => decide (f.path = p)) =
          perFileFeatures include_files ignore_files diff_context code_map level env
            max_chars file := by
        apply List.filter_eq_self.mpr
        intro f hf
        simp [perFileFeatures_path include_files ignore_files diff_context code_map
          level env max_chars file f hf, hp]
      have htail : ((rest.map (perFileFeatures include_files ignore_files diff_context
          code_map level env max_chars)).flatten).filter
            (fun f => decide (f.path = p)) = [] := by
        apply List.filter_eq_nil_iff.mpr
        intro f hf
        rw [List.mem_flatten] at hf
        obtain ⟨blk, hblk, hfblk⟩ := hf
        rw [List.mem_map] at hblk
        obtain ⟨file', hfile', rfl⟩ := hblk
        have hpath := perFileFeatures_path include_files ignore_files diff_context
          code_map level env max_chars file' f hfblk
        simp only [decide_eq_true_eq]
        intro hcon
        apply hnd.1
        rw [List.mem_map]
        exact ⟨file', hfile', by rw [← hpath, hcon, hp]⟩
      rw [hhead, htail, List.append_nil]
      exact perFileFeatures_pairwise_start include_files ignore_files diff_context
        code_map level env max_chars file
    · have hhead : (perFileFeatures include_files ignore_files diff_context code_map
          level env max_chars file).filter (fun f => decide (f.path = p)) = [] := by
        apply List.filter_eq_nil_iff.mpr
        intro f hf
        have hpath := perFileFeatures_path include_files ignore_files diff_context
          code_map level env max_chars file f hf
        simp only [decide_eq_true_eq]
        rw [hpath]
        exact hp
      rw [hhead, List.nil_append]
      exact ih hnd.2

/-- C7: the catalog excludes directories, oversized files, ignored files and
non-text files; every admitted file is represented; the output is sorted by
repository-relative path; and the same-path features appear in
interval-start order. -/
theorem catalog_filtered_sorted_stable
    (include_files : List (String × List CodeFeature)) (ignore_files : List String)
    (diff_context : DiffContext) (code_map : Bool) (level : CodeMessageLevel)
    (env : Env) (max_chars : Nat)
    (hnd : (env.repo.map RepoFile.path).Nodup) :
    (∀ f ∈ _get_all_features include_files ignore_files diff_context code_map level
        env max_chars,
      ∃ file ∈ env.repo, file.path = f.path ∧ admitted ignore_files max_chars file) ∧
    (∀ file ∈ env.repo, admitted ignore_files max_chars file →
      ∃ f ∈ _get_all_features include_files ignore_files diff_context code_map level
        env max_chars, f.path = file.path) ∧
    List.Sorted (keyLe (fun f => pathKey f.path))
      (_get_all_features include_files ignore_files diff_context code_map level env
        max_chars) ∧
    ∀ p, ((_get_all_features include_files ignore_files diff_context code_map level
        env max_chars).filter (fun f => decide (f.path = p))).Pairwise
          (fun f g => intervalStart f ≤ intervalStart g) := by
  have hperm : List.Perm (_get_all_features include_files ignore_files diff_context
        code_map level env max_chars)
      ((env.repo.map (perFileFeatures include_files ignore_files diff_context
        code_map level env max_chars)).flatten) :=
    sortByKey_perm _ _
  refine ⟨?_, ?_, sortByKey_sorted _ _, ?_⟩
  · intro f hf
    have hf2 := hperm.mem_iff.1 hf
    rw [List.mem_flatten] at hf2
    obtain ⟨blk, hblk, hfblk⟩ := hf2
    rw [List.mem_map] at hblk
    obtain ⟨file, hfile, rfl⟩ := hblk
    refine ⟨file, hfile, (perFileFeatures_path include_files ignore_files diff_context
      code_map level env max_chars file f hfblk).symm, ?_⟩
    by_contra hadm
    rw [perFileFeatures_eq_nil include_files ignore_files diff_context code_map level
      env max_chars file hadm] at hfblk
    cases hfblk
  · intro file hfile hadm
    have hne := perFileFeatures_ne_nil include_files ignore_files diff_context
      code_map level env max_chars file hadm
    obtain ⟨f, hf⟩ := List.exists_mem_of_ne_nil _ hne
    refine ⟨f, ?_, perFileFeatures_path include_files ignore_files diff_context
      code_map level env max_chars file f hf⟩
    apply hperm.mem_iff.2
    rw [List.mem_flatten]
    exact ⟨_, List.mem_map_of_mem _ hfile, hf⟩
  · intro p
    have h1 : (_get_all_features include_files ignore_files diff_context code_map
        level env max_chars).filter (fun f => decide (f.path = p)) =
        (_get_all_features include_files ignore_files diff_context code_map level env
          max_chars).filter (fun f : CodeFeature => decide (pathKey f.path = pathKey p)) :=
      List.filter_congr (fun f _ => by
        rw [decide_eq_decide]
        exact (pathKey_inj f.path p).symm)
    have h2 : (_get_all_features include_files ignore_files diff_context code_map
        level env max_chars).filter (fun f : CodeFeature => decide (pathKey f.path = pathKey p)) =
        ((env.repo.map (perFileFeatures include_files ignore_files diff_context
          code_map level env max_chars)).flatten).filter
            (fun f : CodeFeature => decide (pathKey f.path = pathKey p)) :=
      filter_sortByKey (fun f : CodeFeature => pathKey f.path) (pathKey p) _
    have h3 : ((env.repo.map (perFileFeatures include_files ignore_files diff_context
        code_map level env max_chars)).flatten).filter
          (fun f : CodeFeature => decide (pathKey f.path = pathKey p)) =
        ((env.repo.map (perFileFeatures include_files ignore_files diff_context
          code_map level env max_chars)).flatten).filter
            (fun f => decide (f.path = p)) :=
      List.filter_congr (fun f _ => by
        rw [decide_eq_decide]
        exact pathKey_inj f.path p)
    rw [h1, h2, h3]
    exact filter_flatten_blocks include_files ignore_files diff_context code_map
      level env max_chars p env.repo hnd

theorem catalog_filtered_sorted_stable_witness :
    (∀ f ∈ _get_all_features [] [] dcEx true .interval envEx2 max_chars_default,
      ∃ file ∈ envEx2.repo, file.path = f.path ∧
        admitted [] max_chars_default file) ∧
    (∀ file ∈ envEx2.repo, admitted [] max_chars_default file →
      ∃ f ∈ _get_all_features [] [] dcEx true .interval envEx2 max_chars_default,
        f.path = file.path) ∧
    List.Sorted (keyLe (fun f => pathKey f.path))
      (_get_all_features [] [] dcEx true .interval envEx2 max_chars_default) ∧
    ∀ p, ((_get_all_features [] [] dcEx true .interval envEx2
        max_chars_default).filter (fun f => decide (f.path = p))).Pairwise
          (fun f g => intervalStart f ≤ intervalStart g) :=
  catalog_filtered_sorted_stable [] [] dcEx true .interval envEx2 max_chars_default
    (by decide)

theorem mem_aset {β : Type _} (m : List (String × β)) (k : String) (v : β)
    (e : String × β) (he : e ∈ aset m k v) : e = (k, v) ∨ e ∈ m := by
  induction m with
  | nil =>
    simp only [aset, List.mem_singleton] at he
    exact Or.inl he
  | cons e' m ih =>
    by_cases h : e'.1 = k
    · rw [show aset (e' :: m) k v = (k, v) :: m from by simp [aset, h],
        List.mem_cons] at he
      rcases he with heq | hm
      · exact Or.inl heq
      · exact Or.inr (List.mem_cons_of_mem e' hm)
    · rw [show aset (e' :: m) k v = e' :: aset m k v from by simp [aset, h],
        List.mem_cons] at he
      rcases he with heq | hm
      · rw [heq]
        exact Or.inr (List.mem_cons_self e' m)
      · rcases ih hm with h1 | h2
        · exact Or.inl h1
        · exact Or.inr (List.mem_cons_of_mem e' h2)

theorem wf_imp_inv (s : CCState) (h : IncludeWF s) : IncludeInv s := by
  obtain ⟨hnd, hent⟩ := h
  unfold IncludeInv
  rw [List.pairwise_flatten]
  constructor
  · intro l hl
    rw [List.mem_map] at hl
    obtain ⟨e, he, rfl⟩ := hl
    refine List.Pairwise.imp ?_ ((hent e he).2)
    intro a b hov
    exact fun _ => hov
  · have hne : s.include_files.Pairwise (fun e1 e2 => e1.1 ≠ e2.1) := by
      rw [← List.pairwise_map]
      exact hnd
    rw [List.pairwise_map]
    refine List.Pairwise.imp_of_mem ?_ hne
    intro e1 e2 he1 he2 hkey
    intro x hx y hy hpath
    exact absurd (by
      rw [← (hent e1 he1).1 x hx, ← (hent e2 he2).1 y hy]
      exact hpath) hkey

theorem foldl_aset_wf (v : String → List CodeFeature)
    (hQ : ∀ p, entryWF (p, v p)) :
    ∀ (l : List String) (m : List (String × List CodeFeature)),
      (m.map Prod.fst).Nodup → (∀ e ∈ m, entryWF e) →
      (((l.foldl (fun m p => aset m p (v p)) m).map Prod.fst).Nodup ∧
        ∀ e ∈ l.foldl (fun m p => aset m p (v p)) m, entryWF e) := by
  intro l
  induction l with
  | nil =>
    intro m h1 h2
    exact ⟨h1, h2⟩
  | cons p l ih =>
    intro m h1 h2
    simp only [List.foldl_cons]
    apply ih
    · exact nodupKeys_aset m p (v p) h1
    · intro e he
      rcases mem_aset m p (v p) e he with rfl | hm
      · exact hQ p
      · exact h2 e hm

theorem gif_wf (env : Env) (paths excl : List String) :
    (((get_include_files env paths excl).1.map Prod.fst).Nodup) ∧
    ∀ e ∈ (get_include_files env paths excl).1, entryWF e := by
  unfold get_include_files
  refine foldl_aset_wf (fun p => [⟨p, .code, none, none, true⟩]) ?_ _ [] (by simp)
    (by simp)
  intro p
  constructor
  · intro f hf
    rw [List.mem_singleton] at hf
    subst hf
    rfl
  · simp

theorem foldl_erase_wf :
    ∀ (l : List (String × List CodeFeature)) (m : List (String × List CodeFeature)),
      (m.map Prod.fst).Nodup → (∀ e ∈ m, entryWF e) →
      (((l.foldl (fun m e => if e.1 ∈ m.map Prod.fst then aerase m e.1 else m) m).map
        Prod.fst).Nodup ∧
        ∀ e' ∈ l.foldl (fun m e => if e.1 ∈ m.map Prod.fst then aerase m e.1 else m) m,
          entryWF e') := by
  intro l
  induction l with
  | nil =>
    intro m h1 h2
    exact ⟨h1, h2⟩
  | cons e l ih =>
    intro m h1 h2
    simp only [List.foldl_cons]
    by_cases hmem : e.1 ∈ m.map Prod.fst
    · rw [if_pos hmem]
      apply ih
      · exact nodupKeys_aerase m e.1 h1
      · intro e' he'
        exact h2 e' ((aerase_sublist m e.1).subset he')
    · rw [if_neg hmem]
      exact ih m h1 h2

/-- The resolution of a single path specification: either nothing matched or
exactly the one whole-file feature. -/
theorem gif_single (env : Env) (p : String) :
    (get_include_files env [p] []).1 = [] ∨
    (get_include_files env [p] []).1 = [(p, [⟨p, .code, none, none, true⟩])] := by
  unfold get_include_files
  by_cases hv : (env.repo.any (fun f => f.path == p && !f.is_dir && f.is_text)) = true
  · right
    simp [hv, List.filter, aset]
  · left
    simp [hv, List.filter]

theorem include_file_include_files (env : Env) (p : String) (s : CCState) :
    ((include_file env p s).1).include_files =
      (get_include_files env [p] []).1.foldl
        (fun m e => aset m e.1 ((alookup m e.1).getD [] ++ e.2))
        s.include_files := rfl

theorem exclude_file_include_files (env : Env) (p : String) (s : CCState) :
    ((exclude_file env p s).1).include_files =
      (get_include_files env [p] []).1.foldl
        (fun m e => if e.1 ∈ m.map Prod.fst then aerase m e.1 else m)
        s.include_files := rfl

/-- Every state reachable with fresh-path includes satisfies the bookkeeping
invariant. -/
theorem reachableD_wf (env : Env) {s : CCState} (h : IncludeReachableD env s) :
    IncludeWF s := by
  induction h with
  | init diff pr_diff dc config =>
    exact ⟨List.nodup_nil, by intro e he; cases he⟩
  | set_paths_step paths exclude_paths ignore_paths s hs ih =>
    exact gif_wf env _ exclude_paths
  | include_step p s hs hnew ih =>
    obtain ⟨hnd, hent⟩ := ih
    unfold IncludeWF
    rw [include_file_include_files]
    rcases gif_single env p with hres | hres
    · rw [hres]
      exact ⟨hnd, hent⟩
    · rw [hres]
      simp only [List.foldl_cons, List.foldl_nil]
      have hlk : alookup s.include_files p = none :=
        (alookup_eq_none s.include_files p).2 hnew
      rw [show (alookup s.include_files p).getD [] = [] from by rw [hlk]; rfl]
      constructor
      · exact nodupKeys_aset _ p _ hnd
      · intro e he
        rcases mem_aset s.include_files p _ e he with heq | hm
        · rw [heq]
          constructor
          · intro f hf
            rw [List.nil_append, List.mem_singleton] at hf
            rw [hf]
          · simp
        · exact hent e hm
  | exclude_step p s hs ih =>
    obtain ⟨hnd, hent⟩ := ih
    unfold IncludeWF
    rw [exclude_file_include_files]
    exact foldl_erase_wf _ s.include_files hnd hent

/-- C5 (counterexample): a state reachable through the public operations in
which two features with the same path and overlapping (whole-file) intervals
coexist — `include_file` appends without de-duplication. -/
theorem include_overlap_counterexample :
    IncludeReachable envEx sBad ∧ ¬ IncludeInv sBad := by
  constructor
  · exact IncludeReachable.include_step "a.txt" _
      (IncludeReachable.include_step "a.txt" _
        (IncludeReachable.init none none dcEx cfgEx))
  · decide

/-- C5 (amended): in every state reachable through `set_paths`,
`exclude_file`, and `include_file` applied only to paths not already included,
no two features with the same path have overlapping intervals. -/
theorem include_inv_of_fresh_includes (env : Env) (s : CCState)
    (h : IncludeReachableD env s) : IncludeInv s :=
  wf_imp_inv s (reachableD_wf env h)

theorem include_inv_of_fresh_includes_witness :
    IncludeInv (include_file envEx "a.txt" (initState none none dcEx cfgEx)).1 :=
  include_inv_of_fresh_includes envEx _
    (IncludeReachableD.include_step "a.txt" _
      (IncludeReachableD.init none none dcEx cfgEx) (by decide))

/-- C8: with embeddings disabled, `search` returns no results and emits the
user-visible notice, for every query and every `max_results`; with embeddings
enabled, the (untruncated) result is exactly the catalog's candidate features
each paired with its similarity score (as a permutation), sorted descending by
score, and a given `max_results` truncates that sorted sequence to at most
that many entries. -/
theorem search_contract (env : Env) (s : CCState) (query : String)
    (level : CodeMessageLevel) (n : Nat) :
    (s.config.use_embeddings = false →
      search env s query none level = ([], [embeddingsDisabledNotice]) ∧
      search env s query (some n) level = ([], [embeddingsDisabledNotice])) ∧
    (s.config.use_embeddings = true →
      List.Perm (search env s query none level).1
        ((_get_all_features s.include_files s.ignore_files s.diff_context
          s.code_map level env max_chars_default).map
            (fun f => (f, env.sim_score query f))) ∧
      List.Pairwise (fun a b : CodeFeature × Int => b.2 ≤ a.2)
        (search env s query none level).1 ∧
      (search env s query (some n) level).1 =
        (search env s query none level).1.take n ∧
      (search env s query (some n) level).1.length ≤ n) := by
  constructor
  · intro hoff
    have hs : ∀ mr : Option Nat, search env s query mr level =
        ([], [embeddingsDisabledNotice]) := by
      intro mr
      unfold search
      rw [if_pos (by simp [hoff])]
    exact ⟨hs none, hs (some n)⟩
  · intro hon
    have hnn : ¬ ¬ s.config.use_embeddings = true := by simp [hon]
    have hfull : (search env s query none level).1 =
        sortByKey (fun p : CodeFeature × Int => -p.2)
          ((_get_all_features s.include_files s.ignore_files s.diff_context
            s.code_map level env max_chars_default).map
              (fun f => (f, env.sim_score query f))) := by
      unfold search
      rw [if_neg hnn]
    have hsome : (search env s query (some n) level).1 =
        (sortByKey (fun p : CodeFeature × Int => -p.2)
          ((_get_all_features s.include_files s.ignore_files s.diff_context
            s.code_map level env max_chars_default).map
              (fun f => (f, env.sim_score query f)))).take n := by
      unfold search
      rw [if_neg hnn]
    refine ⟨?_, ?_, ?_, ?_⟩
    · rw [hfull]
      exact sortByKey_perm _ _
    · rw [hfull]
      refine List.Pairwise.imp ?_
        (sortByKey_sorted (fun p : CodeFeature × Int => -p.2) _)
      intro a b hab
      have hab2 : -a.2 ≤ -b.2 := hab
      omega
    · rw [hsome, hfull]
    · rw [hsome, List.length_take]
      omega

theorem search_contract_witness :
    ((sC2A.config.use_embeddings = false →
      search envEx2 sC2A "q" none .interval = ([], [embeddingsDisabledNotice]) ∧
      search envEx2 sC2A "q" (some 1) .interval =
        ([], [embeddingsDisabledNotice])) ∧
    (sC2A.config.use_embeddings = true →
      List.Perm (search envEx2 sC2A "q" none .interval).1
        ((_get_all_features sC2A.include_files sC2A.ignore_files sC2A.diff_context
          sC2A.code_map .interval envEx2 max_chars_default).map
            (fun f => (f, envEx2.sim_score "q" f))) ∧
      List.Pairwise (fun a b : CodeFeature × Int => b.2 ≤ a.2)
        (search envEx2 sC2A "q" none .interval).1 ∧
      (search envEx2 sC2A "q" (some 1) .interval).1 =
        (search envEx2 sC2A "q" none .interval).1.take 1 ∧
      (search envEx2 sC2A "q" (some 1) .interval).1.length ≤ 1)) ∧
    ((sEmb.config.use_embeddings = false →
      search envEx2 sEmb "q" none .interval = ([], [embeddingsDisabledNotice]) ∧
      search envEx2 sEmb "q" (some 1) .interval =
        ([], [embeddingsDisabledNotice])) ∧
    (sEmb.config.use_embeddings = true →
      List.Perm (search envEx2 sEmb "q" none .interval).1
        ((_get_all_features sEmb.include_files sEmb.ignore_files sEmb.diff_context
          sEmb.code_map .interval envEx2 max_chars_default).map
            (fun f => (f, envEx2.sim_score "q" f))) ∧
      List.Pairwise (fun a b : CodeFeature × Int => b.2 ≤ a.2)
        (search envEx2 sEmb "q" none .interval).1 ∧
      (search envEx2 sEmb "q" (some 1) .interval).1 =
        (search envEx2 sEmb "q" none .interval).1.take 1 ∧
      (search envEx2 sEmb "q" (some 1) .interval).1.length ≤ 1)) :=
  ⟨search_contract envEx2 sC2A "q" .interval 1,
   search_contract envEx2 sEmb "q" .interval 1⟩

end Mentat

/-- C9: in every reachable `Broadcast` state, the backend is subscribed to a
channel exactly when that channel has at least one live subscriber queue. -/
theorem backend_subscribed_iff_live_queue (s : BCState)
    (h : Broadcast.Reachable s) (c : String) :
    c ∈ s.backend.subscribed ↔ Broadcast.getSubs s c ≠ [] :=
  (Broadcast.reachable_inv h).2.2 c

theorem backend_subscribed_iff_live_queue_witness :
    "ch" ∈ bcEx.backend.subscribed ↔ Broadcast.getSubs bcEx "ch" ≠ [] :=
  backend_subscribed_iff_live_queue bcEx
    (Broadcast.Reachable.enterStep "ch" 0 _ Broadcast.Reachable.init) "ch"

/-- C10: events published while a channel is unsubscribed leave the queue
untouched and are buffered in order, and the next subscribe re-publishes the
whole buffer to the queue in original publication order and clears it. -/
theorem missed_events_buffered_and_replayed (s : MBState) (c msg : String)
    (hwf : ∀ e ∈ MemoryBackend.getMissed s c, e.channel = c)
    (hns : c ∉ s.subscribed) :
    (MemoryBackend.publish c msg s).published = s.published ∧
    MemoryBackend.getMissed (MemoryBackend.publish c msg s) c =
      MemoryBackend.getMissed s c ++ [⟨c, msg⟩] ∧
    (MemoryBackend.subscribe c s).published =
      s.published ++ MemoryBackend.getMissed s c ∧
    MemoryBackend.getMissed (MemoryBackend.subscribe c s) c = [] := by
  have hc1 : c ∈ insertIfAbsent c s.subscribed :=
    (mem_insertIfAbsent c c s.subscribed).2 (Or.inr rfl)
  have hfold := MemoryBackend.foldl_publish_spec c (MemoryBackend.getMissed s c)
    { s with subscribed := insertIfAbsent c s.subscribed } hwf hc1
  refine ⟨?_, ?_, ?_, ?_⟩
  · unfold MemoryBackend.publish
    rw [if_neg hns]
  · unfold MemoryBackend.publish MemoryBackend.getMissed
    rw [if_neg hns]
    show (alookup (aset s.missed c
      (MemoryBackend.getMissed s c ++ [⟨c, msg⟩])) c).getD [] = _
    rw [alookup_aset]
    rfl
  · show ((MemoryBackend.getMissed s c).foldl
        (fun acc e => MemoryBackend.publish e.channel e.message acc)
        { s with subscribed := insertIfAbsent c s.subscribed }).published = _
    rw [hfold]
  · show (alookup (aset ((MemoryBackend.getMissed s c).foldl
        (fun acc e => MemoryBackend.publish e.channel e.message acc)
        { s with subscribed := insertIfAbsent c s.subscribed }).missed c []) c).getD []
      = ([] : List Event)
    rw [alookup_aset]
    rfl

theorem missed_events_buffered_and_replayed_witness :
    (MemoryBackend.publish "a" "m3" mbEx).published = mbEx.published ∧
    MemoryBackend.getMissed (MemoryBackend.publish "a" "m3" mbEx) "a" =
      MemoryBackend.getMissed mbEx "a" ++ [⟨"a", "m3"⟩] ∧
    (MemoryBackend.subscribe "a" mbEx).published =
      mbEx.published ++ MemoryBackend.getMissed mbEx "a" ∧
    MemoryBackend.getMissed (MemoryBackend.subscribe "a" mbEx) "a" = [] :=
  missed_events_buffered_and_replayed mbEx "a" "m3" (by decide) (by decide)

